import Mathlib

/-!
Verification of the SKU inventory-management core (ETL transformers).

This file shallowly embeds the transformer modules of the repository
(`etl/transformers/product_normalizer.py`, `price_analyzer.py`,
`risk_calculator.py`, `sentiment_analyzer.py`, `sku_matcher.py`) and proves
or refutes the frozen specification claims about them.

Conventions of the embedding:
* Python strings are `String` / `List Char`; case folding models Python's
  `str.lower` / `str.upper` on the ASCII range (Korean Hangul has no case,
  so it is fixed by both, as in Python).
* The regular expressions of the source are fixed, finite patterns (ordered
  alternations of literal tokens joined by `\s+`, a digit run, a `\b`
  boundary).  They are embedded as deterministic scanners.  Greedy `\s+` /
  `\d+` followed by a non-space/non-digit literal never needs backtracking,
  so maximal munch is exact.
* Prices, timestamps and percentages are `ℚ`; Python's `round(x, 2)`
  (round-half-to-even) is modelled exactly on `ℚ`.
* Database queries are external collaborators: the embedded functions take
  the rows the query would return (or an `Except` carrying a storage
  failure) as an argument.
-/

namespace SkuInv

/-- Python `str.lower` for one character on the ASCII range (identity on
everything else, in particular on Hangul, digits and whitespace). -/
def lowChar : Char → Char
  | 'A' => 'a' | 'B' => 'b' | 'C' => 'c' | 'D' => 'd' | 'E' => 'e' | 'F' => 'f'
  | 'G' => 'g' | 'H' => 'h' | 'I' => 'i' | 'J' => 'j' | 'K' => 'k' | 'L' => 'l'
  | 'M' => 'm' | 'N' => 'n' | 'O' => 'o' | 'P' => 'p' | 'Q' => 'q' | 'R' => 'r'
  | 'S' => 's' | 'T' => 't' | 'U' => 'u' | 'V' => 'v' | 'W' => 'w' | 'X' => 'x'
  | 'Y' => 'y' | 'Z' => 'z' | c => c

/-- Python `str.upper` for one character on the ASCII range. -/
def upChar : Char → Char
  | 'a' => 'A' | 'b' => 'B' | 'c' => 'C' | 'd' => 'D' | 'e' => 'E' | 'f' => 'F'
  | 'g' => 'G' | 'h' => 'H' | 'i' => 'I' | 'j' => 'J' | 'k' => 'K' | 'l' => 'L'
  | 'm' => 'M' | 'n' => 'N' | 'o' => 'O' | 'p' => 'P' | 'q' => 'Q' | 'r' => 'R'
  | 's' => 'S' | 't' => 'T' | 'u' => 'U' | 'v' => 'V' | 'w' => 'W' | 'x' => 'X'
  | 'y' => 'Y' | 'z' => 'Z' | c => c

/-- Regex `\s` (Python whitespace, ASCII range). -/
def isSpace (c : Char) : Bool :=
  c = ' ' || c = '\t' || c = '\n' || c = '\x0d' || c = '\x0b' || c = '\x0c'

/-- Regex `\w` for the character repertoire this program processes:
ASCII alphanumerics, underscore, and Hangul syllables (Python's Unicode
`\w` restricted to the characters appearing in this domain). -/
def isWordChar (c : Char) : Bool :=
  c.isAlphanum || c = '_' || (0xAC00 ≤ c.toNat && c.toNat ≤ 0xD7A3)

/-- Lowercase a token (used to store patterns pre-folded for `re.IGNORECASE`). -/
def strLower (s : String) : List Char := s.toList.map lowChar

/- ### The matching engine -/

/-- Match a literal token case-insensitively at the head of `s`; the token
is stored lowercased.  Returns `(consumed, rest)`. -/
def matchLit : List Char → List Char → Option (List Char × List Char)
  | [], s => some ([], s)
  | _ :: _, [] => none
  | t :: ts, c :: cs =>
    if lowChar c = t then
      match matchLit ts cs with
      | some (w, rest) => some (c :: w, rest)
      | none => none
    else none

/-- Longest run of whitespace at the head (`\s*` by maximal munch). -/
def spanSp : List Char → List Char × List Char
  | [] => ([], [])
  | c :: cs =>
    if isSpace c then
      let p := spanSp cs
      (c :: p.1, p.2)
    else ([], c :: cs)

/-- Longest run of digits at the head (`\d*` by maximal munch). -/
def spanDigits : List Char → List Char × List Char
  | [] => ([], [])
  | c :: cs =>
    if c.isDigit then
      let p := spanDigits cs
      (c :: p.1, p.2)
    else ([], c :: cs)

/-- Match `t₁\s+t₂\s+…\s+tₙ` at the head of `s` (tokens literal,
case-insensitive).  Returns `(consumed, rest)`.  Each token starts with a
non-space character, so greedy `\s+` never backtracks. -/
def matchSeq : List (List Char) → List Char → Option (List Char × List Char)
  | [], s => some ([], s)
  | t :: ts, s =>
    match matchLit t s with
    | none => none
    | some (w, rest) =>
      match ts with
      | [] => some (w, rest)
      | _ :: _ =>
        let p := spanSp rest
        if p.1 = [] then none
        else
          match matchSeq ts p.2 with
          | none => none
          | some (w2, rest2) => some (w ++ p.1 ++ w2, rest2)

def isWordO : Option Char → Bool
  | none => false
  | some c => isWordChar c

/-- Regex `\b` between two (optional) characters. -/
def boundaryB (a b : Option Char) : Bool := isWordO a != isWordO b

/-- One alternative of a group `\b( … )\b`: leading boundary against the
previous character, token sequence, trailing boundary. -/
def tryAlt (toks : List (List Char)) (prev : Option Char) (s : List Char) :
    Option (List Char × List Char) :=
  if boundaryB prev s.head? then
    match matchSeq toks s with
    | some (w, rest) =>
      if boundaryB w.getLast? rest.head? then some (w, rest) else none
    | none => none
  else none

/-- Ordered alternation: the first alternative that matches at this
position wins (Python `re` alternation order). -/
def tryAlts (alts : List (List (List Char))) (prev : Option Char)
    (s : List Char) : Option (List Char × List Char) :=
  match alts with
  | [] => none
  | a :: rest =>
    match tryAlt a prev s with
    | some r => some r
    | none => tryAlts rest prev s

/-- `re.search`: scan positions left to right, return the group text of the
leftmost match (first alternative in order at that position). -/
def searchAux (alts : List (List (List Char))) :
    Option Char → List Char → Option (List Char)
  | prev, [] => (tryAlts alts prev []).map Prod.fst
  | prev, c :: cs =>
    match tryAlts alts prev (c :: cs) with
    | some r => some r.1
    | none => searchAux alts (some c) cs

/-- `re.sub(pattern, '', s)`: scan the original text left to right, drop
every non-overlapping match.  `fuel` bounds the recursion; every match of
the patterns used here consumes at least one character, so
`s.length + 1` fuel computes the exact substitution. -/
def scanSub (try_ : Option Char → List Char → Option (List Char × List Char)) :
    Nat → Option Char → List Char → List Char
  | 0, _, s => s
  | fuel + 1, prev, s =>
    match try_ prev s with
    | some (c :: w, rest) => scanSub try_ fuel ((c :: w).getLast?) rest
    | _ =>
      match s with
      | [] => []
      | c :: cs => c :: scanSub try_ fuel (some c) cs

def subAll (try_ : Option Char → List Char → Option (List Char × List Char))
    (s : List Char) : List Char :=
  scanSub try_ (s.length + 1) none s

/-- Match `(\d+)\s*GB` (no boundaries) at the head of `s`; returns
`(group 1, consumed, rest)`. -/
def matchVram (s : List Char) : Option (List Char × List Char × List Char) :=
  match spanDigits s with
  | ([], _) => none
  | (d :: ds, r1) =>
    let p := spanSp r1
    match p.2 with
    | g :: b :: rest =>
      if lowChar g = 'g' && lowChar b = 'b' then
        some (d :: ds, ((d :: ds) ++ p.1 ++ [g, b], rest))
      else none
    | _ => none

/-- `re.search` for `(\d+)\s*GB`, returning group 1. -/
def searchVramAux : List Char → Option (List Char)
  | [] => none
  | c :: cs =>
    match matchVram (c :: cs) with
    | some r => some r.1
    | none => searchVramAux cs

/- ### String helpers used by the normalizer -/

def splitWsAux : List Char → List Char → List (List Char)
  | [], acc => if acc = [] then [] else [acc.reverse]
  | c :: cs, acc =>
    if isSpace c then
      if acc = [] then splitWsAux cs []
      else acc.reverse :: splitWsAux cs []
    else splitWsAux cs (c :: acc)

/-- Python `str.split()` (split on whitespace runs, dropping empties). -/
def splitWs (s : List Char) : List (List Char) := splitWsAux s []

/-- Python `' '.join(ws)`. -/
def joinSp : List (List Char) → List Char
  | [] => []
  | [w] => w
  | w :: ws => w ++ ' ' :: joinSp ws

/- ### ProductNormalizer (etl/transformers/product_normalizer.py) -/

/-- `NormalizedProduct` (etl/models.py fields used by the normalizer). -/
structure NormalizedProduct where
  brand : String
  chipset : String
  model_name : String
  vram : String
  is_oc : Bool
deriving DecidableEq

/-- `ProductNormalizer.RTX_4070_VARIANTS`. -/
def RTX_4070_VARIANTS : List String :=
  ["RTX 4070 Ti Super", "RTX 4070 Super", "RTX 4070 Ti", "RTX 4070"]

/-- `ProductNormalizer.BRANDS`. -/
def BRANDS : List String :=
  ["ASUS", "MSI", "GIGABYTE", "기가바이트", "ZOTAC", "PALIT", "팔릿",
   "GALAX", "GAINWARD", "이엠텍", "EMTEK", "PNY", "INNO3D",
   "COLORFUL", "MANLI", "KFA2", "EVGA", "LEADTEK"]

/-- The ordered chipset alternation of `_compile_chipset_pattern`
(`RTX\s+4070\s+Ti\s+Super | RTX\s+4070\s+Super | RTX\s+4070\s+Ti |
RTX\s+4070 | 4070\s+Ti\s+Super | 4070\s+Super | 4070\s+Ti`), tokens
lowercased for `re.IGNORECASE`. -/
def chipsetAlts : List (List (List Char)) :=
  [ [strLower "RTX", strLower "4070", strLower "Ti", strLower "Super"],
    [strLower "RTX", strLower "4070", strLower "Super"],
    [strLower "RTX", strLower "4070", strLower "Ti"],
    [strLower "RTX", strLower "4070"],
    [strLower "4070", strLower "Ti", strLower "Super"],
    [strLower "4070", strLower "Super"],
    [strLower "4070", strLower "Ti"] ]

/-- The brand alternation of `_compile_brand_pattern`, in `BRANDS` order. -/
def brandAlts : List (List (List Char)) := BRANDS.map (fun b => [strLower b])

/-- The OC alternation `\b(OC|오버클럭|Overclock)\b`. -/
def ocAlts : List (List (List Char)) :=
  [[strLower "OC"], [strLower "오버클럭"], [strLower "Overclock"]]

/-- The memory-type alternation `\b(D6X?|GDDR6X?)\b` (greedy `X?` first). -/
def memAlts : List (List (List Char)) :=
  [[strLower "D6X"], [strLower "D6"], [strLower "GDDR6X"], [strLower "GDDR6"]]

/-- The GPU-family alternation `\b(지포스|GeForce)\b`. -/
def famAlts : List (List (List Char)) :=
  [[strLower "지포스"], [strLower "GeForce"]]

/-- `chipset.upper().startswith('RTX')`. -/
def upperStartsRTX (l : List Char) : Bool :=
  match l.map upChar with
  | 'R' :: 'T' :: 'X' :: _ => true
  | _ => false

/-- Python `str.capitalize()`: first character uppercased, rest lowercased. -/
def capWord (w : List Char) : List Char :=
  match w with
  | [] => []
  | c :: cs => upChar c :: cs.map lowChar

/-- `word.capitalize() if word.lower() not in ['rtx'] else word.upper()`. -/
def canonWord (w : List Char) : List Char :=
  if w.map lowChar = strLower "RTX" then w.map upChar else capWord w

/-- Lines 151-162 of `_extract_chipset`: whitespace-normalize the matched
group, add the `RTX ` prefix when missing, then canonicalize casing. -/
def canonicalizeChipset (w : List Char) : List Char :=
  let c1 := joinSp (splitWs w)
  let c2 := if upperStartsRTX c1 then c1 else 'R' :: 'T' :: 'X' :: ' ' :: c1
  joinSp ((splitWs c2).map canonWord)

/-- `ProductNormalizer._extract_chipset` (errors carry the exception message). -/
def extract_chipset (name : String) : Except String String :=
  match searchAux chipsetAlts none name.toList with
  | none => .error ("Failed to extract chipset from: " ++ name)
  | some w =>
    let chipset := String.mk (canonicalizeChipset w)
    if chipset ∈ RTX_4070_VARIANTS then .ok chipset
    else .error ("Chipset " ++ chipset ++ " not in RTX 4070 series")

/-- The Korean-to-English `brand_mapping` of `_extract_brand`. -/
def brand_mapping (b : String) : String :=
  if b = "기가바이트" then "GIGABYTE"
  else if b = "팔릿" then "PALIT"
  else if b = "이엠텍" then "EMTEK"
  else b

/-- `ProductNormalizer._extract_brand`. -/
def extract_brand (name : String) : Except String String :=
  match searchAux brandAlts none name.toList with
  | none => .error ("Failed to extract brand from: " ++ name)
  | some w => .ok (brand_mapping (String.mk (w.map upChar)))

/-- `ProductNormalizer._extract_vram`. -/
def extract_vram (name : String) : Except String String :=
  match searchVramAux name.toList with
  | none => .error ("Failed to extract VRAM from: " ++ name)
  | some ds => .ok (String.mk ds ++ "GB")

/-- `ProductNormalizer._detect_oc`. -/
def detect_oc (name : String) : Bool :=
  (searchAux ocAlts none name.toList).isSome

/-- Character class `[^\w\s가-힣-]` is replaced by a space; these are the
characters that are kept. -/
def keepChar (c : Char) : Bool :=
  isWordChar c || isSpace c || (0xAC00 ≤ c.toNat && c.toNat ≤ 0xD7A3) || c = '-'

/-- `ProductNormalizer._extract_model_name`: strip brand, chipset, VRAM,
OC, memory-type and family tokens from the raw name, clean decoration,
collapse whitespace; fall back to the raw name when fewer than 3
characters remain. -/
def extract_model_name (name brand chipset : String) : String :=
  let s1 := subAll (fun _ t => matchLit (strLower brand) t) name.toList
  let s2 := subAll (fun _ t => matchLit (strLower chipset) t) s1
  let s3 := subAll (fun _ t => (matchVram t).map (fun r => r.2)) s2
  let s4 := subAll (tryAlts ocAlts) s3
  let s5 := subAll (tryAlts memAlts) s4
  let s6 := subAll (tryAlts famAlts) s5
  let s7 := s6.map (fun c => if keepChar c then c else ' ')
  let cleaned := joinSp (splitWs s7)
  if 2 < cleaned.length then String.mk cleaned else name

/-- `ProductNormalizer.normalize`.  Errors are the `NormalizationError`
messages of the source. -/
def normalize (product_name : String) : Except String NormalizedProduct :=
  if product_name.toList.all isSpace then .error "Product name cannot be empty"
  else
    match extract_brand product_name with
    | .error e => .error e
    | .ok brand =>
      match extract_chipset product_name with
      | .error e => .error e
      | .ok chipset =>
        match extract_vram product_name with
        | .error e => .error e
        | .ok vram =>
          .ok { brand := brand, chipset := chipset,
                model_name := extract_model_name product_name brand chipset,
                vram := vram, is_oc := detect_oc product_name }

/- ### PriceAnalyzer (etl/transformers/price_analyzer.py) -/

/-- Python `round` to an integer: round half to even. -/
def roundHE (q : ℚ) : ℤ :=
  if q - ⌊q⌋ = 1 / 2 then (if ⌊q⌋ % 2 = 0 then ⌊q⌋ else ⌊q⌋ + 1) else round q

/-- Python `round(x, 2)`. -/
def round2 (q : ℚ) : ℚ := (roundHE (q * 100) : ℚ) / 100

/-- The exception kinds raised by the analyzers (the messages interpolate
the SKU id and prices and are immaterial to the claims). -/
inductive PyErr where
  | valueError
  | insufficientDataError
deriving DecidableEq

/-- `PriceAnalyzer._get_historical_prices`: the prices of the observations
whose timestamp (in days) falls within `window_days` of
`now - days_ago`.  `history` is the contents of `price_logs` for the SKU
as `(recorded_at, price)` pairs; the SQL `ORDER BY` is irrelevant
downstream (only the mean of the window is used). -/
def get_historical_prices (now : ℚ) (history : List (ℚ × ℚ))
    (days_ago window_days : ℚ) : List ℚ :=
  (history.filter (fun o =>
    decide (now - days_ago - window_days ≤ o.1) &&
    decide (o.1 ≤ now - days_ago + window_days))).map Prod.snd

/-- `avg_price_7_days_ago` / `last_week_avg_price`: the arithmetic mean of
the prices observed in the 6-8-days-ago window. -/
def baseline_price (now : ℚ) (history : List (ℚ × ℚ)) : ℚ :=
  (get_historical_prices now history 7 1).sum /
    ((get_historical_prices now history 7 1).length : ℚ)

/-- `PriceAnalyzer.calculate_price_change` (the storage query is passed in
as `history`). -/
def calculate_price_change (current_price : ℚ) (now : ℚ)
    (history : List (ℚ × ℚ)) : Except PyErr ℚ :=
  if current_price ≤ 0 then .error .valueError
  else
    let historical_prices := get_historical_prices now history 7 1
    if historical_prices = [] then .error .insufficientDataError
    else
      let avg := historical_prices.sum / historical_prices.length
      if avg = 0 then .error .valueError
      else .ok (round2 ((current_price - avg) / avg * 100))

/-- `PriceAnalyzer.has_sufficient_data`.  The argument is the outcome of
the `MIN(recorded_at)` storage query: a storage failure, or the optional
earliest timestamp (in days).  `(datetime.now() - earliest).days`
truncates to whole elapsed days, i.e. `⌊now - earliest⌋`.  The catch-all
`except` clause turns a storage failure into `False`. -/
def has_sufficient_data (now : ℚ) (required_days : ℤ)
    (query_result : Except String (Option ℚ)) : Bool :=
  match query_result with
  | .error _ => false
  | .ok none => false
  | .ok (some earliest) => decide (required_days ≤ ⌊now - earliest⌋)

/- ### RiskCalculator (etl/transformers/risk_calculator.py) -/

/-- `RiskCalculator.calculate_risk_index` (the storage query is passed in
as `history`, exactly as `_get_historical_prices` would filter it). -/
def calculate_risk_index (current_price : ℚ) (new_release_mentions : ℤ)
    (now : ℚ) (history : List (ℚ × ℚ)) : Except PyErr ℚ :=
  if current_price ≤ 0 then .error .valueError
  else if new_release_mentions < 0 then .error .valueError
  else
    let historical_prices := get_historical_prices now history 7 1
    if historical_prices = [] then .error .insufficientDataError
    else
      let last_week_avg_price := historical_prices.sum / historical_prices.length
      let price_delta := current_price - last_week_avg_price
      let sentiment_impact := (new_release_mentions : ℚ) * (3 / 10)
      .ok (round2 (price_delta + sentiment_impact))

/-- `RiskCalculator.check_threshold`: high risk iff the index is strictly
below the configured threshold. -/
def check_threshold (threshold risk_index : ℚ) : Bool :=
  decide (risk_index < threshold)

/- ### SentimentAnalyzer (etl/transformers/sentiment_analyzer.py) -/

/-- `MarketSignal` (etl/models.py fields used by the analyzer); the
timestamp is in days, `timestamp.date()` is its floor. -/
structure MarketSignal where
  keyword : String
  post_title : String
  post_url : String
  timestamp : ℚ
deriving DecidableEq

def sigDate (s : MarketSignal) : ℤ := ⌊s.timestamp⌋

/-- The dedup key `(signal.keyword, signal_date, signal.post_url)`. -/
abbrev MentionKey := String × ℤ × String

def mentionKey (s : MarketSignal) : MentionKey := (s.keyword, sigDate s, s.post_url)

/-- `frequency_map[signal.keyword][signal_date] += 1` on the counts viewed
as a total function (the Python `defaultdict` default is 0). -/
def bump (f : String → ℤ → ℕ) (kw : String) (d : ℤ) : String → ℤ → ℕ :=
  fun x y => if x = kw ∧ y = d then f x y + 1 else f x y

/-- One iteration of the loop of `analyze_keyword_frequency`: state is
(`unique_mentions`, `frequency_map`). -/
def freqStep (st : List MentionKey × (String → ℤ → ℕ)) (sig : MarketSignal) :
    List MentionKey × (String → ℤ → ℕ) :=
  let k := mentionKey sig
  if k ∈ st.1 then st
  else (k :: st.1, bump st.2 sig.keyword (sigDate sig))

/-- `SentimentAnalyzer.analyze_keyword_frequency`, as the per-keyword
per-date count map (0 where the Python dict has no entry). -/
def analyze_keyword_frequency (signals : List MarketSignal) : String → ℤ → ℕ :=
  (signals.foldl freqStep ([], fun _ _ => 0)).2

/- ### SKUMatcher (etl/transformers/sku_matcher.py) -/

/-- A row of the `skus` table; `id` is the auto-increment primary key, so
larger `id` means more recently created. -/
structure SKURow where
  id : ℕ
  brand : String
  chipset : String
  model_name : String
  vram : String
  is_oc : Bool
deriving DecidableEq

/-- The `CASE` expression computing `similarity_score`. -/
def similarity_score (p : NormalizedProduct) (r : SKURow) : ℕ :=
  if r.brand = p.brand ∧ r.chipset = p.chipset then 3
  else if r.chipset = p.chipset then 2
  else if r.brand = p.brand then 1
  else 0

/-- `ORDER BY similarity_score DESC, id DESC` as a relation on scored rows. -/
def simOrder (a b : SKURow × ℕ) : Prop :=
  b.2 < a.2 ∨ (a.2 = b.2 ∧ b.1.id ≤ a.1.id)

instance : DecidableRel simOrder := fun _ _ => by
  unfold simOrder; infer_instance

instance : IsTotal (SKURow × ℕ) simOrder := ⟨by
  intro a b; unfold simOrder; omega⟩

instance : IsTrans (SKURow × ℕ) simOrder := ⟨by
  intro a b c hab hbc; unfold simOrder at *; omega⟩

/-- `SKUMatcher.find_similar_skus`: `db` is the contents of the `skus`
table; the SQL `WHERE`, `CASE`, `ORDER BY … DESC, id DESC` and `LIMIT`
are modelled by filter, score, sort and take. -/
def find_similar_skus (db : List SKURow) (p : NormalizedProduct) (limit : ℕ) :
    List (SKURow × ℕ) :=
  (((db.filter (fun r =>
      decide (r.brand = p.brand) || decide (r.chipset = p.chipset))).map
    (fun r => (r, similarity_score p r))).insertionSort simOrder).take limit

/-- `SKUMatcher.find_matching_sku`: the argument is the outcome of the
exact-match storage query; a storage failure is wrapped into a
`SKUMatchError` carrying the cause and re-raised, a legitimate "no match"
is a normal `none`. -/
def find_matching_sku (query_result : Except String (Option ℕ)) :
    Except String (Option ℕ) :=
  match query_result with
  | .error e => .error ("Failed to find matching SKU: " ++ e)
  | .ok r => .ok r

deriving instance DecidableEq for Except

/- ### Shape of a token-sequence match (used to reason about
`canonicalizeChipset` on arbitrary matched text) -/

/-- `SeqShape ts w` says the consumed text `w` is an interleaving of
case-variants of the (lowercased) tokens `ts` with nonempty whitespace
runs — exactly what `matchSeq ts` can consume. -/
inductive SeqShape : List (List Char) → List Char → Prop
  | single (t w : List Char) (hw : w.map lowChar = t) : SeqShape [t] w
  | cons (t : List Char) (w sp rest : List Char) (ts : List (List Char))
      (hw : w.map lowChar = t) (hsp : sp ≠ [])
      (hsps : ∀ c ∈ sp, isSpace c = true)
      (hrest : SeqShape ts rest) : SeqShape (t :: ts) (w ++ sp ++ rest)

/- ## Helper lemmas -/

theorem round2_int (n : ℤ) : round2 (n : ℚ) = n := by
  unfold round2 roundHE
  have h100 : ((n : ℚ) * 100) = ((100 * n : ℤ) : ℚ) := by push_cast; ring
  rw [h100, Int.floor_intCast, round_intCast]
  rw [if_neg (by push_cast; norm_num)]
  push_cast
  ring

theorem window_example :
    get_historical_prices 100 [(93, 1000000)] 7 1 = [1000000] := by
  unfold get_historical_prices
  norm_num [List.filter]

theorem baseline_example : baseline_price 100 [(93, 1000000)] = 1000000 := by
  rw [baseline_price, window_example]
  norm_num

/- ## Claims -/

/-- C1: for every catalog entry whose 6-8-days-ago window holds at least
one price observation, every `currentPrice > 0` and every
`newReleaseMentions ≥ 0`, `calculate_risk_index` returns
`round((currentPrice - baseline) + newReleaseMentions * 0.3, 2)` where
`baseline` is the arithmetic mean of the window's observed prices. -/
theorem riskIndex_formula (now current_price : ℚ) (new_release_mentions : ℤ)
    (history : List (ℚ × ℚ)) (hp : 0 < current_price)
    (hm : 0 ≤ new_release_mentions)
    (hw : get_historical_prices now history 7 1 ≠ []) :
    calculate_risk_index current_price new_release_mentions now history =
      .ok (round2 ((current_price - baseline_price now history) +
        (new_release_mentions : ℚ) * (3 / 10))) := by
  simp only [calculate_risk_index, baseline_price]
  rw [if_neg (not_le.mpr hp), if_neg (not_lt.mpr hm), if_neg hw]

/-- Witness for C1 at the spec's example: baseline 1,000,000 (one
observation exactly 7 days old), current price 950,000, 10 mentions,
risk index −49,997.00. -/
theorem riskIndex_formula_witness :
    calculate_risk_index 950000 10 100 [(93, 1000000)] = .ok (-49997) := by
  have h := riskIndex_formula 100 950000 10 [(93, 1000000)] (by norm_num)
    (by norm_num) (by rw [window_example]; simp)
  rw [h, baseline_example]
  have hv : ((950000 : ℚ) - 1000000) + ((10 : ℤ) : ℚ) * (3 / 10) =
      ((-49997 : ℤ) : ℚ) := by push_cast; norm_num
  rw [hv, round2_int]
  norm_num

/-- C2: `calculate_price_change` returns
`round((current - baseline)/baseline*100, 2)` when the current price is
positive and the ±1-day window centered 7 days ago holds an observation;
it raises `InsufficientDataError` when the window is empty, and a
`ValueError` when the current price is non-positive or the baseline is
exactly zero — never a silently coerced value. -/
theorem percentChange_spec (now current_price : ℚ) (history : List (ℚ × ℚ)) :
    (0 < current_price → get_historical_prices now history 7 1 ≠ [] →
      baseline_price now history ≠ 0 →
      calculate_price_change current_price now history =
        .ok (round2 ((current_price - baseline_price now history) /
          baseline_price now history * 100))) ∧
    (0 < current_price → get_historical_prices now history 7 1 = [] →
      calculate_price_change current_price now history =
        .error .insufficientDataError) ∧
    (current_price ≤ 0 →
      calculate_price_change current_price now history = .error .valueError) ∧
    (0 < current_price → get_historical_prices now history 7 1 ≠ [] →
      baseline_price now history = 0 →
      calculate_price_change current_price now history = .error .valueError) := by
  refine ⟨fun hp hw hb => ?_, fun hp hw => ?_, fun hp => ?_, fun hp hw hb => ?_⟩
  · simp only [calculate_price_change, baseline_price] at hb ⊢
    rw [if_neg (not_le.mpr hp), if_neg hw, if_neg hb]
  · simp only [calculate_price_change]
    rw [if_neg (not_le.mpr hp), if_pos hw]
  · simp only [calculate_price_change]
    rw [if_pos hp]
  · simp only [calculate_price_change, baseline_price] at hb ⊢
    rw [if_neg (not_le.mpr hp), if_neg hw, if_pos hb]

/-- Witness for C2 at the spec's examples: +10.00% and −10.00% against a
baseline of 1,000,000, and `InsufficientDataError` on an empty history. -/
theorem percentChange_spec_witness :
    calculate_price_change 1100000 100 [(93, 1000000)] = .ok 10 ∧
    calculate_price_change 900000 100 [(93, 1000000)] = .ok (-10) ∧
    calculate_price_change 1100000 100 [] = .error .insufficientDataError := by
  have hw : get_historical_prices 100 [((93 : ℚ), (1000000 : ℚ))] 7 1 ≠ [] := by
    rw [window_example]; simp
  have hb : baseline_price 100 [((93 : ℚ), (1000000 : ℚ))] ≠ 0 := by
    rw [baseline_example]; norm_num
  refine ⟨?_, ?_, ?_⟩
  · have h := (percentChange_spec 100 1100000 [(93, 1000000)]).1 (by norm_num) hw hb
    rw [h, baseline_example]
    have hv : ((1100000 : ℚ) - 1000000) / 1000000 * 100 = ((10 : ℤ) : ℚ) := by
      norm_num
    rw [hv, round2_int]
    norm_num
  · have h := (percentChange_spec 100 900000 [(93, 1000000)]).1 (by norm_num) hw hb
    rw [h, baseline_example]
    have hv : ((900000 : ℚ) - 1000000) / 1000000 * 100 = ((-10 : ℤ) : ℚ) := by
      norm_num
    rw [hv, round2_int]
    norm_num
  · exact (percentChange_spec 100 1100000 []).2.1 (by norm_num) rfl

/-- C7: `check_threshold` is true iff the risk index is strictly below the
configured threshold; at the boundary `riskIndex == threshold` it is
false. -/
theorem isHighRisk_iff (threshold risk_index : ℚ) :
    (check_threshold threshold risk_index = true ↔ risk_index < threshold) ∧
    check_threshold threshold threshold = false := by
  constructor
  · simp [check_threshold]
  · simp [check_threshold]

/-- Witness for C7: −150 is high risk against threshold −100; the
boundary value is not. -/
theorem isHighRisk_iff_witness :
    check_threshold (-100) (-150) = true ∧
    check_threshold (-100) (-100) = false :=
  ⟨(isHighRisk_iff (-100) (-150)).1.mpr (by norm_num), (isHighRisk_iff (-100) (-100)).2⟩

/-- Counterexample for C9: `has_sufficient_data` does *not* propagate a
storage failure — the catch-all `except` clause converts it into the
normal return value `false`, indistinguishable from a genuine
data-insufficiency report (here a SKU whose earliest observation is only
1 day old). -/
theorem hasSufficientData_swallows_failure :
    has_sufficient_data 100 7 (.error "Database error") = false ∧
    has_sufficient_data 100 7 (.ok (some 99)) = false := by
  constructor
  · rfl
  · have h : ((100 : ℚ) - 99) = 1 := by norm_num
    simp [has_sufficient_data, h]

/-- C9 amended: `find_matching_sku` wraps a storage failure with context
(`SKUMatchError("Failed to find matching SKU: …")`) and re-raises it,
and returns the query outcome unchanged otherwise;
`has_sufficient_data` answers true iff the earliest recorded observation
is at least `required_days` old, but — unlike the other storage-backed
operations — it swallows a storage failure and returns `false` instead
of re-raising it. -/
theorem storage_propagation_amended :
    (∀ e : String, find_matching_sku (.error e) =
      .error ("Failed to find matching SKU: " ++ e)) ∧
    (∀ r : Option ℕ, find_matching_sku (.ok r) = .ok r) ∧
    (∀ (now earliest : ℚ) (required_days : ℤ),
      (has_sufficient_data now required_days (.ok (some earliest)) = true ↔
        required_days ≤ ⌊now - earliest⌋)) ∧
    (∀ (now : ℚ) (required_days : ℤ) (e : String),
      has_sufficient_data now required_days (.error e) = false) := by
  refine ⟨fun e => rfl, fun r => rfl, fun now earliest rd => ?_, fun _ _ _ => rfl⟩
  simp [has_sufficient_data]

/-- Witness for C9 (amended): a concrete wrapped storage failure and a
concrete sufficiency answer. -/
theorem storage_propagation_amended_witness :
    find_matching_sku (.error "timeout") =
      .error "Failed to find matching SKU: timeout" ∧
    (has_sufficient_data 100 7 (.ok (some 93)) = true ↔
      (7 : ℤ) ≤ ⌊(100 : ℚ) - 93⌋) :=
  ⟨storage_propagation_amended.1 "timeout",
   storage_propagation_amended.2.2.1 100 93 7⟩

/-- The loop of `analyze_keyword_frequency`, characterized: starting from
`(seen, f)`, the final count at `(kw, d)` adds to `f kw d` the number of
distinct dedup keys of the remaining signals that match `(kw, d)` and are
not yet in `seen`. -/
theorem freq_fold_spec (l : List MarketSignal) :
    ∀ (seen : List MentionKey) (f : String → ℤ → ℕ) (kw : String) (d : ℤ),
      (l.foldl freqStep (seen, f)).2 kw d =
        f kw d + ((l.map mentionKey).toFinset.filter
          (fun k => k ∉ seen ∧ k.1 = kw ∧ k.2.1 = d)).card := by
  induction l with
  | nil => intro seen f kw d; simp
  | cons sig l ih =>
    intro seen f kw d
    simp only [List.foldl_cons, List.map_cons, List.toFinset_cons,
      Finset.filter_insert]
    by_cases hk : mentionKey sig ∈ seen
    · rw [show freqStep (seen, f) sig = (seen, f) from by simp [freqStep, hk]]
      rw [ih, if_neg (by simp [hk])]
    · rw [show freqStep (seen, f) sig =
          (mentionKey sig :: seen, bump f sig.keyword (sigDate sig)) from by
        simp [freqStep, hk]]
      rw [ih]
      by_cases hmatch : (mentionKey sig).1 = kw ∧ (mentionKey sig).2.1 = d
      · rw [if_pos ⟨hk, hmatch⟩]
        have hbump : bump f sig.keyword (sigDate sig) kw d = f kw d + 1 := by
          unfold bump
          rw [if_pos ⟨hmatch.1.symm, hmatch.2.symm⟩]
        rw [hbump]
        have hP : ((l.map mentionKey).toFinset.filter
            (fun k => k ∉ mentionKey sig :: seen ∧ k.1 = kw ∧ k.2.1 = d)) =
            ((l.map mentionKey).toFinset.filter
              (fun k => k ∉ seen ∧ k.1 = kw ∧ k.2.1 = d)).erase
              (mentionKey sig) := by
          rw [← Finset.filter_ne', Finset.filter_filter]
          apply Finset.filter_congr
          intro k _
          simp only [List.mem_cons, not_or, eq_iff_iff]
          tauto
        rw [hP]
        set T := ((l.map mentionKey).toFinset.filter
          (fun k => k ∉ seen ∧ k.1 = kw ∧ k.2.1 = d)) with hT
        by_cases hkT : mentionKey sig ∈ T
        · rw [Finset.insert_eq_self.mpr hkT, Finset.card_erase_of_mem hkT]
          have hpos := Finset.card_pos.mpr ⟨_, hkT⟩
          omega
        · rw [Finset.erase_eq_of_not_mem hkT,
            Finset.card_insert_of_not_mem hkT]
          omega
      · rw [if_neg (by tauto)]
        have hbump : bump f sig.keyword (sigDate sig) kw d = f kw d := by
          unfold bump
          rw [if_neg (fun hc => hmatch ⟨hc.1.symm, hc.2.symm⟩)]
        rw [hbump]
        congr 1
        refine congrArg Finset.card (Finset.filter_congr ?_)
        intro k _
        simp only [List.mem_cons, not_or, eq_iff_iff]
        constructor
        · rintro ⟨⟨_, hns⟩, hm⟩
          exact ⟨hns, hm⟩
        · rintro ⟨hns, hm⟩
          refine ⟨⟨fun hkk => hmatch ?_, hns⟩, hm⟩
          rw [← hkk]
          exact hm

/-- C3: `analyze_keyword_frequency` counts each distinct
(keyword, calendar date, post URL) triple exactly once — the count at
`(kw, d)` is the number of distinct dedup keys matching `(kw, d)` (so two
different keywords from the same post each count once, and repeats of a
triple contribute nothing) — and the resulting count map is invariant
under permutation of the input and under duplication of its elements. -/
theorem dailyFrequency_dedup :
    (∀ (signals : List MarketSignal) (kw : String) (d : ℤ),
      analyze_keyword_frequency signals kw d =
        ((signals.map mentionKey).toFinset.filter
          (fun k => k.1 = kw ∧ k.2.1 = d)).card) ∧
    (∀ l₁ l₂ : List MarketSignal, l₁.Perm l₂ →
      analyze_keyword_frequency l₁ = analyze_keyword_frequency l₂) ∧
    (∀ (sig : MarketSignal) (l : List MarketSignal), sig ∈ l →
      analyze_keyword_frequency (sig :: l) = analyze_keyword_frequency l) := by
  have hchar : ∀ (signals : List MarketSignal) (kw : String) (d : ℤ),
      analyze_keyword_frequency signals kw d =
        ((signals.map mentionKey).toFinset.filter
          (fun k => k.1 = kw ∧ k.2.1 = d)).card := by
    intro signals kw d
    unfold analyze_keyword_frequency
    rw [freq_fold_spec]
    simp
  refine ⟨hchar, fun l₁ l₂ hp => ?_, fun sig l hmem => ?_⟩
  · funext kw d
    rw [hchar, hchar,
      List.toFinset_eq_of_perm _ _ (hp.map mentionKey)]
  · funext kw d
    rw [hchar, hchar, List.map_cons, List.toFinset_cons,
      Finset.insert_eq_self.mpr
        (List.mem_toFinset.mpr (List.mem_map_of_mem mentionKey hmem))]

/-- Witness for C3: a duplicated (keyword, date, post URL) triple
contributes nothing, while a second keyword from the same post on the same
day is counted once. -/
theorem dailyFrequency_dedup_witness :
    analyze_keyword_frequency
        [⟨"New Release", "t", "url1", 0⟩, ⟨"New Release", "t", "url1", 0⟩,
         ⟨"Price Drop", "t", "url1", 0⟩] =
      analyze_keyword_frequency
        [⟨"New Release", "t", "url1", 0⟩, ⟨"Price Drop", "t", "url1", 0⟩] ∧
    analyze_keyword_frequency
        [⟨"New Release", "t", "url1", 0⟩, ⟨"Price Drop", "t", "url1", 0⟩]
        "New Release" 0 = 1 ∧
    analyze_keyword_frequency
        [⟨"New Release", "t", "url1", 0⟩, ⟨"Price Drop", "t", "url1", 0⟩]
        "Price Drop" 0 = 1 := by
  refine ⟨dailyFrequency_dedup.2.2 ⟨"New Release", "t", "url1", 0⟩ _
    (by simp), ?_, ?_⟩
  · rw [dailyFrequency_dedup.1]
    simp only [mentionKey, sigDate, List.map_cons, List.map_nil]
    norm_num
    decide
  · rw [dailyFrequency_dedup.1]
    simp only [mentionKey, sigDate, List.map_cons, List.map_nil]
    norm_num
    decide

/-- The `CASE` score characterized: 3 iff both brand and chipset match,
2 iff only the chipset matches, 1 iff only the brand matches. -/
theorem similarity_score_iff (p : NormalizedProduct) (r : SKURow) :
    (similarity_score p r = 3 ↔ (r.brand = p.brand ∧ r.chipset = p.chipset)) ∧
    (similarity_score p r = 2 ↔ (r.brand ≠ p.brand ∧ r.chipset = p.chipset)) ∧
    (similarity_score p r = 1 ↔ (r.brand = p.brand ∧ r.chipset ≠ p.chipset)) := by
  unfold similarity_score
  by_cases hb : r.brand = p.brand <;> by_cases hc : r.chipset = p.chipset <;>
    simp [hb, hc]

/-- C8: `find_similar_skus` returns at most `limit` entries; every entry
carries the `CASE` similarity score — 3 when it shares brand and chipset
with the product, 2 when it shares only the chipset, 1 when it shares
only the brand — and the list is ordered by score descending with ties
ordered by `id` descending (`id` is the auto-increment key, so larger id
means created more recently); hence an entry sharing brand and chipset
always precedes one sharing only the chipset, which precedes one sharing
only the brand. -/
theorem findSimilar_ranking (db : List SKURow) (p : NormalizedProduct)
    (limit : ℕ) :
    (find_similar_skus db p limit).length ≤ limit ∧
    (∀ x ∈ find_similar_skus db p limit,
      x.2 = similarity_score p x.1 ∧
      (x.2 = 3 ↔ (x.1.brand = p.brand ∧ x.1.chipset = p.chipset)) ∧
      (x.2 = 2 ↔ (x.1.brand ≠ p.brand ∧ x.1.chipset = p.chipset)) ∧
      (x.2 = 1 ↔ (x.1.brand = p.brand ∧ x.1.chipset ≠ p.chipset))) ∧
    (find_similar_skus db p limit).Pairwise simOrder := by
  refine ⟨?_, ?_, ?_⟩
  · exact List.length_take_le _ _
  · intro x hx
    have hx' : x ∈ ((db.filter (fun r =>
        decide (r.brand = p.brand) || decide (r.chipset = p.chipset))).map
          (fun r => (r, similarity_score p r))).insertionSort simOrder := by
      exact List.mem_of_mem_take hx
    rw [(List.perm_insertionSort simOrder _).mem_iff] at hx'
    obtain ⟨r, _, hr⟩ := List.mem_map.mp hx'
    subst hr
    exact ⟨rfl, similarity_score_iff p r⟩
  · refine List.Pairwise.sublist (List.take_sublist _ _) ?_
    exact List.sorted_insertionSort simOrder _

/-- Witness for C8: a concrete catalog where the ranking, scores, length
bound and tie-break are all visible. -/
theorem findSimilar_ranking_witness :
    (find_similar_skus
        [⟨1, "ASUS", "RTX 4070", "m1", "12GB", false⟩,
         ⟨2, "ASUS", "RTX 4070 Ti", "m2", "12GB", false⟩,
         ⟨3, "MSI", "RTX 4070", "m3", "12GB", false⟩,
         ⟨4, "ASUS", "RTX 4070", "m4", "12GB", false⟩]
        ⟨"ASUS", "RTX 4070", "q", "12GB", false⟩ 3).length ≤ 3 ∧
    (find_similar_skus
        [⟨1, "ASUS", "RTX 4070", "m1", "12GB", false⟩,
         ⟨2, "ASUS", "RTX 4070 Ti", "m2", "12GB", false⟩,
         ⟨3, "MSI", "RTX 4070", "m3", "12GB", false⟩,
         ⟨4, "ASUS", "RTX 4070", "m4", "12GB", false⟩]
        ⟨"ASUS", "RTX 4070", "q", "12GB", false⟩ 3) =
      [(⟨4, "ASUS", "RTX 4070", "m4", "12GB", false⟩, 3),
       (⟨1, "ASUS", "RTX 4070", "m1", "12GB", false⟩, 3),
       (⟨3, "MSI", "RTX 4070", "m3", "12GB", false⟩, 2)] := by
  constructor
  · exact (findSimilar_ranking
      [⟨1, "ASUS", "RTX 4070", "m1", "12GB", false⟩,
       ⟨2, "ASUS", "RTX 4070 Ti", "m2", "12GB", false⟩,
       ⟨3, "MSI", "RTX 4070", "m3", "12GB", false⟩,
       ⟨4, "ASUS", "RTX 4070", "m4", "12GB", false⟩]
      ⟨"ASUS", "RTX 4070", "q", "12GB", false⟩ 3).1
  · decide

theorem extract_chipset_mem {s c : String} (h : extract_chipset s = .ok c) :
    c ∈ RTX_4070_VARIANTS := by
  unfold extract_chipset at h
  split at h
  · exact absurd h (by simp)
  · dsimp only at h
    split at h
    · rename_i hmem
      simp only [Except.ok.injEq] at h
      rw [← h]
      exact hmem
    · exact absurd h (by simp)

theorem normalize_ok_chipset {s : String} {p : NormalizedProduct}
    (h : normalize s = .ok p) : extract_chipset s = .ok p.chipset := by
  unfold normalize at h
  split at h
  · exact absurd h (by simp)
  · split at h
    · exact absurd h (by simp)
    · split at h
      · exact absurd h (by simp)
      · rename_i heq
        split at h
        · exact absurd h (by simp)
        · simp only [Except.ok.injEq] at h
          rw [← h]
          exact heq

/-- C6: a successful `normalize` only ever returns one of the four
in-scope chipsets, and inputs naming only an out-of-scope chipset
(RTX 4060 / 4080 / 4090) raise a `NormalizationError` whose message names
the chipset field and the offending text. -/
theorem chipset_scope :
    (∀ (s : String) (p : NormalizedProduct),
      normalize s = .ok p → p.chipset ∈ RTX_4070_VARIANTS) ∧
    normalize "ASUS RTX 4060 12GB" =
      .error "Failed to extract chipset from: ASUS RTX 4060 12GB" ∧
    normalize "ASUS RTX 4080 12GB" =
      .error "Failed to extract chipset from: ASUS RTX 4080 12GB" ∧
    normalize "ASUS RTX 4090 12GB" =
      .error "Failed to extract chipset from: ASUS RTX 4090 12GB" := by
  exact ⟨fun s p h => extract_chipset_mem (normalize_ok_chipset h),
    by decide, by decide, by decide⟩

/-- Witness for C6: a successful normalization whose chipset is in the
four-variant enum. -/
theorem chipset_scope_witness :
    normalize "ASUS RTX 4070 12GB" =
      .ok ⟨"ASUS", "RTX 4070", "ASUS RTX 4070 12GB", "12GB", false⟩ ∧
    "RTX 4070" ∈ RTX_4070_VARIANTS := by
  refine ⟨by decide, ?_⟩
  exact chipset_scope.1 "ASUS RTX 4070 12GB"
    ⟨"ASUS", "RTX 4070", "ASUS RTX 4070 12GB", "12GB", false⟩ (by decide)

/-- Counterexample for C4: this input *contains* the phrase
"RTX 4070 Ti Super", yet `normalize` returns chipset "RTX 4070 Ti",
because `re.search` returns the leftmost match and a separate, earlier
occurrence of the shorter pattern "4070 Ti" wins the scan. -/
theorem tiSuper_stolen_counterexample :
    "MSI 4070 Ti " ++ "RTX 4070 Ti Super" ++ " 16GB" =
      "MSI 4070 Ti RTX 4070 Ti Super 16GB" ∧
    normalize "MSI 4070 Ti RTX 4070 Ti Super 16GB" =
      .ok ⟨"MSI", "RTX 4070 Ti", "4070 Ti Super", "16GB", false⟩ :=
  ⟨rfl, by decide⟩

/-- Counterexample for C5: the chipset pattern list has *no* bare "4070"
alternative without the "RTX" prefix, so a numeral-only bare-4070 name
with a valid brand and VRAM fails chipset extraction instead of
normalizing successfully. -/
theorem bare4070_counterexample :
    normalize "MSI 4070 12GB" =
      .error "Failed to extract chipset from: MSI 4070 12GB" := by decide

/-- C5 amended: of the numeral-only (no "RTX" prefix) forms, exactly the
three suffixed variants "4070 Ti Super", "4070 Super" and "4070 Ti" are
accepted, each normalizing with the "RTX" prefix added to the canonical
chipset; the bare "4070" form is not in the pattern list and fails (see
the counterexample). -/
theorem numeralOnly_forms_amended :
    normalize "MSI 4070 Ti Super 16GB" =
      .ok ⟨"MSI", "RTX 4070 Ti Super", "4070 Ti Super", "16GB", false⟩ ∧
    normalize "MSI 4070 Super 16GB" =
      .ok ⟨"MSI", "RTX 4070 Super", "4070 Super", "16GB", false⟩ ∧
    normalize "MSI 4070 Ti 16GB" =
      .ok ⟨"MSI", "RTX 4070 Ti", "4070 Ti", "16GB", false⟩ :=
  ⟨by decide, by decide, by decide⟩

/- ### Case-folding lemmas -/

theorem up_low (c : Char) : upChar (lowChar c) = upChar c := by
  unfold lowChar
  split <;> rfl

theorem lowChar_cases (c : Char) :
    lowChar c = c ∨ lowChar c ∈ ['a', 'b', 'c', 'd', 'e', 'f', 'g', 'h', 'i',
      'j', 'k', 'l', 'm', 'n', 'o', 'p', 'q', 'r', 's', 't', 'u', 'v', 'w',
      'x', 'y', 'z'] := by
  unfold lowChar
  split
  all_goals first | (left; rfl) | (right; decide)

theorem low_idem (c : Char) : lowChar (lowChar c) = lowChar c := by
  rcases lowChar_cases c with h | h
  · rw [h]
    exact h
  · simp only [List.mem_cons, List.not_mem_nil, or_false] at h
    rcases h with h|h|h|h|h|h|h|h|h|h|h|h|h|h|h|h|h|h|h|h|h|h|h|h|h|h <;>
      rw [h] <;> decide

theorem low_space (c : Char) : isSpace (lowChar c) = isSpace c := by
  unfold lowChar
  split <;> rfl

theorem map_up_of_low (w : List Char) :
    (w.map lowChar).map upChar = w.map upChar := by
  rw [List.map_map]
  exact List.map_congr_left fun c _ => up_low c

theorem map_low_idem (w : List Char) :
    (w.map lowChar).map lowChar = w.map lowChar := by
  rw [List.map_map]
  exact List.map_congr_left fun c _ => low_idem c

theorem canonWord_congr (w : List Char) :
    canonWord (w.map lowChar) = canonWord w := by
  unfold canonWord
  rw [map_low_idem]
  by_cases h : w.map lowChar = strLower "RTX"
  · rw [if_pos h, if_pos h, map_up_of_low]
  · rw [if_neg h, if_neg h]
    cases w with
    | nil => rfl
    | cons c cs => simp [capWord, up_low, low_idem, map_low_idem]

theorem joinSp_map (f : Char → Char) (hf : f ' ' = ' ') (ps : List (List Char)) :
    (joinSp ps).map f = joinSp (ps.map (List.map f)) := by
  induction ps with
  | nil => rfl
  | cons p ps ih =>
    cases ps with
    | nil => rfl
    | cons q qs =>
      show (p ++ ' ' :: joinSp (q :: qs)).map f = p.map f ++ ' ' :: _
      rw [List.map_append, List.map_cons, hf, ih]
      rfl

theorem upperStartsRTX_ext (l l' : List Char)
    (h : l.map upChar = l'.map upChar) :
    upperStartsRTX l = upperStartsRTX l' := by
  unfold upperStartsRTX
  rw [h]

/- ### `str.split()` / `' '.join` lemmas -/

theorem splitWsAux_word (w : List Char) (hw : ∀ c ∈ w, isSpace c = false) :
    ∀ (rest acc : List Char),
      splitWsAux (w ++ rest) acc = splitWsAux rest (w.reverse ++ acc) := by
  induction w with
  | nil => intro rest acc; simp
  | cons c cs ih =>
    intro rest acc
    rw [List.cons_append]
    show (if isSpace c = true then _ else _) = _
    rw [if_neg (by simp [hw c (by simp)])]
    rw [ih (fun d hd => hw d (by simp [hd])) rest (c :: acc)]
    simp

theorem splitWsAux_spaces (sp : List Char)
    (hsp : ∀ c ∈ sp, isSpace c = true) :
    ∀ rest, splitWsAux (sp ++ rest) [] = splitWsAux rest [] := by
  induction sp with
  | nil => intro rest; simp
  | cons c cs ih =>
    intro rest
    rw [List.cons_append]
    show (if isSpace c = true then _ else _) = _
    rw [if_pos (hsp c (by simp)), if_pos rfl]
    exact ih (fun d hd => hsp d (by simp [hd])) rest

theorem splitWsAux_sep (sp rest acc : List Char) (hspne : sp ≠ [])
    (hsps : ∀ c ∈ sp, isSpace c = true) (ha : acc ≠ []) :
    splitWsAux (sp ++ rest) acc = acc.reverse :: splitWsAux rest [] := by
  cases sp with
  | nil => exact absurd rfl hspne
  | cons c cs =>
    rw [List.cons_append]
    show (if isSpace c = true then _ else _) = _
    rw [if_pos (hsps c (by simp)), if_neg ha]
    rw [splitWsAux_spaces cs (fun d hd => hsps d (by simp [hd])) rest]

theorem splitWs_single (w : List Char) (hw : w ≠ [])
    (hsp : ∀ c ∈ w, isSpace c = false) : splitWs w = [w] := by
  unfold splitWs
  have h := splitWsAux_word w hsp [] []
  rw [List.append_nil] at h
  rw [h]
  show (if w.reverse ++ [] = [] then _ else _) = _
  rw [if_neg (by simp [hw])]
  simp

theorem splitWs_joinSp (ps : List (List Char)) (hne : ∀ p ∈ ps, p ≠ [])
    (hsp : ∀ p ∈ ps, ∀ c ∈ p, isSpace c = false) :
    splitWs (joinSp ps) = ps := by
  induction ps with
  | nil => rfl
  | cons p ps ih =>
    cases ps with
    | nil => exact splitWs_single p (hne p (by simp)) (hsp p (by simp))
    | cons q qs =>
      show splitWs (p ++ ' ' :: joinSp (q :: qs)) = p :: q :: qs
      unfold splitWs
      rw [splitWsAux_word p (hsp p (by simp)) (' ' :: joinSp (q :: qs)) []]
      rw [show (' ' :: joinSp (q :: qs)) = [' '] ++ joinSp (q :: qs) from rfl]
      rw [splitWsAux_sep [' '] (joinSp (q :: qs)) (p.reverse ++ [])
        (by simp) (by intro d hd; simp at hd; subst hd; rfl)
        (by simp [hne p (by simp)])]
      have iht := ih (fun r hr => hne r (by simp [hr]))
        (fun r hr => hsp r (by simp [hr]))
      unfold splitWs at iht
      rw [iht]
      simp

/- ### Soundness of the matching engine -/

theorem matchLit_spec : ∀ (t s w rest : List Char),
    matchLit t s = some (w, rest) → w.map lowChar = t ∧ s = w ++ rest := by
  intro t
  induction t with
  | nil =>
    intro s w rest h
    unfold matchLit at h
    simp only [Option.some.injEq, Prod.mk.injEq] at h
    obtain ⟨h1, h2⟩ := h
    subst h1; subst h2
    exact ⟨rfl, rfl⟩
  | cons tc ts ih =>
    intro s w rest h
    cases s with
    | nil => exact absurd h (by simp [matchLit])
    | cons c cs =>
      unfold matchLit at h
      split at h
      · rename_i hlc
        cases hm : matchLit ts cs with
        | none => rw [hm] at h; exact absurd h (by simp)
        | some pr =>
          obtain ⟨w2, r2⟩ := pr
          rw [hm] at h
          simp only [Option.some.injEq, Prod.mk.injEq] at h
          obtain ⟨h1, h2⟩ := h
          subst h1; subst h2
          obtain ⟨ih1, ih2⟩ := ih cs w2 r2 hm
          exact ⟨by simp [ih1, hlc], by simp [ih2]⟩
      · exact absurd h (by simp)

theorem spanSp_spec (s : List Char) :
    (spanSp s).1 ++ (spanSp s).2 = s ∧
    ∀ c ∈ (spanSp s).1, isSpace c = true := by
  induction s with
  | nil => exact ⟨rfl, by simp [spanSp]⟩
  | cons c cs ih =>
    unfold spanSp
    by_cases hc : isSpace c = true
    · rw [if_pos hc]
      refine ⟨by simp [ih.1], ?_⟩
      intro d hd
      simp only [List.mem_cons] at hd
      rcases hd with rfl | hd
      · exact hc
      · exact ih.2 d hd
    · rw [if_neg hc]
      exact ⟨rfl, by simp⟩

theorem matchSeq_shape : ∀ (ts : List (List Char)) (s w rest : List Char),
    ts ≠ [] → matchSeq ts s = some (w, rest) →
    SeqShape ts w ∧ s = w ++ rest := by
  intro ts
  induction ts with
  | nil => intro s w rest h; exact absurd rfl h
  | cons t ts ih =>
    intro s w rest _ h
    unfold matchSeq at h
    cases hlit : matchLit t s with
    | none => rw [hlit] at h; exact absurd h (by simp)
    | some pr =>
      obtain ⟨w1, r1⟩ := pr
      rw [hlit] at h
      obtain ⟨hw1, hs1⟩ := matchLit_spec t s w1 r1 hlit
      cases ts with
      | nil =>
        simp only [Option.some.injEq, Prod.mk.injEq] at h
        obtain ⟨h1, h2⟩ := h
        subst h1; subst h2
        exact ⟨SeqShape.single t w1 hw1, hs1⟩
      | cons t2 ts2 =>
        dsimp only at h
        split at h
        · exact absurd h (by simp)
        · rename_i hsp1
          cases hm : matchSeq (t2 :: ts2) (spanSp r1).2 with
          | none => rw [hm] at h; exact absurd h (by simp)
          | some pr2 =>
            obtain ⟨w2, r2⟩ := pr2
            rw [hm] at h
            simp only [Option.some.injEq, Prod.mk.injEq] at h
            obtain ⟨h1, h2⟩ := h
            obtain ⟨hshape, hs2⟩ := ih _ w2 r2 (by simp) hm
            obtain ⟨hsp_app, hsp_all⟩ := spanSp_spec r1
            subst h1
            subst h2
            refine ⟨SeqShape.cons t w1 (spanSp r1).1 w2 (t2 :: ts2) hw1
              hsp1 hsp_all hshape, ?_⟩
            rw [hs1]
            conv_lhs => rw [← hsp_app, hs2]
            simp

theorem seqShape_split : ∀ (ts : List (List Char)) (w : List Char),
    SeqShape ts w → (∀ t ∈ ts, t ≠ []) →
    (∀ t ∈ ts, ∀ c ∈ t, isSpace c = false) →
    (splitWs w).map (List.map lowChar) = ts := by
  intro ts w h
  induction h with
  | single t w hw =>
    intro hne hsp
    have hw_ne : w ≠ [] := by
      intro hcon
      apply hne t (by simp)
      rw [← hw, hcon]
      rfl
    have hw_sp : ∀ c ∈ w, isSpace c = false := by
      intro c hc
      have hmem : lowChar c ∈ t := by
        rw [← hw]
        exact List.mem_map_of_mem lowChar hc
      have hl := hsp t (by simp) (lowChar c) hmem
      rw [← low_space c]
      exact hl
    rw [splitWs_single w hw_ne hw_sp]
    simp [hw]
  | cons t w sp rest ts hw hspne hsps _ ih =>
    intro hne hsp
    have hw_ne : w ≠ [] := by
      intro hcon
      apply hne t (by simp)
      rw [← hw, hcon]
      rfl
    have hw_sp : ∀ c ∈ w, isSpace c = false := by
      intro c hc
      have hmem : lowChar c ∈ t := by
        rw [← hw]
        exact List.mem_map_of_mem lowChar hc
      have hl := hsp t (by simp) (lowChar c) hmem
      rw [← low_space c]
      exact hl
    show (splitWs ((w ++ sp) ++ rest)).map (List.map lowChar) = t :: ts
    unfold splitWs
    rw [List.append_assoc, splitWsAux_word w hw_sp (sp ++ rest) []]
    rw [splitWsAux_sep sp rest (w.reverse ++ []) hspne hsps
      (by simp [hw_ne])]
    have iht := ih (fun r hr => hne r (by simp [hr]))
      (fun r hr => hsp r (by simp [hr]))
    unfold splitWs at iht
    simp only [List.map_cons, iht]
    simp [hw]

/- ### Canonicalization of any matched chipset text -/

theorem canonicalizeChipset_of_split (w : List Char) (ts : List (List Char))
    (hmap : (splitWs w).map (List.map lowChar) = ts)
    (hne : ∀ t ∈ ts, t ≠ [])
    (hsp : ∀ t ∈ ts, ∀ c ∈ t, isSpace c = false) :
    canonicalizeChipset w = canonicalizeChipset (joinSp ts) := by
  have hpne : ∀ p ∈ splitWs w, p ≠ [] := by
    intro p hp hcon
    apply hne (p.map lowChar) (by rw [← hmap]; exact List.mem_map_of_mem _ hp)
    rw [hcon]
    rfl
  have hpsp : ∀ p ∈ splitWs w, ∀ c ∈ p, isSpace c = false := by
    intro p hp c hc
    have := hsp (p.map lowChar)
      (by rw [← hmap]; exact List.mem_map_of_mem _ hp)
      (lowChar c) (List.mem_map_of_mem lowChar hc)
    rw [← low_space c]
    exact this
  have hcw : (splitWs w).map canonWord = ts.map canonWord := by
    rw [← hmap, List.map_map]
    exact List.map_congr_left fun p _ => (canonWord_congr p).symm
  have hup : (joinSp (splitWs w)).map upChar = (joinSp ts).map upChar := by
    rw [joinSp_map upChar rfl, joinSp_map upChar rfl, ← hmap, List.map_map]
    exact congrArg joinSp
      (List.map_congr_left fun p _ => (map_up_of_low p).symm)
  unfold canonicalizeChipset
  dsimp only
  rw [splitWs_joinSp ts hne hsp]
  rw [upperStartsRTX_ext _ _ hup]
  by_cases hrtx : upperStartsRTX (joinSp ts) = true
  · rw [if_pos hrtx, if_pos hrtx]
    rw [splitWs_joinSp (splitWs w) hpne hpsp, splitWs_joinSp ts hne hsp, hcw]
  · rw [if_neg hrtx, if_neg hrtx]
    have hpref : ∀ (l : List (List Char)), (∀ p ∈ l, p ≠ []) →
        (∀ p ∈ l, ∀ c ∈ p, isSpace c = false) →
        splitWs ('R' :: 'T' :: 'X' :: ' ' :: joinSp l) =
          ['R', 'T', 'X'] :: l := by
      intro l hlne hlsp
      unfold splitWs
      rw [show ('R' :: 'T' :: 'X' :: ' ' :: joinSp l) =
        ['R', 'T', 'X'] ++ ([' '] ++ joinSp l) from rfl]
      rw [splitWsAux_word ['R', 'T', 'X'] (by decide) ([' '] ++ joinSp l) []]
      rw [splitWsAux_sep [' '] (joinSp l) _ (by simp) (by decide) (by simp)]
      have hjl := splitWs_joinSp l hlne hlsp
      unfold splitWs at hjl
      rw [hjl]
      rfl
    rw [hpref (splitWs w) hpne hpsp, hpref ts hne hsp]
    simp only [List.map_cons, hcw]

/- ### Search soundness -/

theorem tryAlts_cons_some (a : List (List Char))
    (as : List (List (List Char))) (prev : Option Char) (s : List Char)
    (r : List Char × List Char) (h : tryAlt a prev s = some r) :
    tryAlts (a :: as) prev s = some r := by
  unfold tryAlts
  rw [h]

theorem tryAlts_cons_none (a : List (List Char))
    (as : List (List (List Char))) (prev : Option Char) (s : List Char)
    (h : tryAlt a prev s = none) :
    tryAlts (a :: as) prev s = tryAlts as prev s := by
  conv_lhs => unfold tryAlts
  rw [h]

theorem tryAlts_sound : ∀ (alts : List (List (List Char)))
    (prev : Option Char) (s w rest : List Char),
    tryAlts alts prev s = some (w, rest) →
    ∃ toks ∈ alts, matchSeq toks s = some (w, rest) := by
  intro alts
  induction alts with
  | nil =>
    intro prev s w rest h
    exact absurd h (by simp [tryAlts])
  | cons a as ih =>
    intro prev s w rest h
    unfold tryAlts at h
    cases ht : tryAlt a prev s with
    | some r =>
      rw [ht] at h
      simp only [Option.some.injEq] at h
      subst h
      refine ⟨a, by simp, ?_⟩
      unfold tryAlt at ht
      split at ht
      · cases hm : matchSeq a s with
        | none => rw [hm] at ht; exact Option.noConfusion ht
        | some pr =>
          obtain ⟨w2, r2⟩ := pr
          rw [hm] at ht
          dsimp only at ht
          split at ht
          · simp only [Option.some.injEq, Prod.mk.injEq] at ht
            obtain ⟨h1, h2⟩ := ht
            subst h1; subst h2
            rfl
          · exact absurd ht (by simp)
      · exact absurd ht (by simp)
    | none =>
      rw [ht] at h
      obtain ⟨toks, hmem, hms⟩ := ih prev s w rest h
      exact ⟨toks, by simp [hmem], hms⟩

theorem searchAux_sound : ∀ (s : List Char)
    (alts : List (List (List Char))) (prev : Option Char) (w : List Char),
    searchAux alts prev s = some w →
    ∃ toks ∈ alts, ∃ s' rest, matchSeq toks s' = some (w, rest) := by
  intro s
  induction s with
  | nil =>
    intro alts prev w h
    unfold searchAux at h
    cases ht : tryAlts alts prev [] with
    | none => rw [ht] at h; exact Option.noConfusion h
    | some r =>
      rw [ht] at h
      simp only [Option.map_some', Option.some.injEq] at h
      obtain ⟨toks, hmem, hms⟩ := tryAlts_sound alts prev [] r.1 r.2 ht
      exact ⟨toks, hmem, [], r.2, by rw [h] at hms; exact hms⟩
  | cons c cs ih =>
    intro alts prev w h
    unfold searchAux at h
    cases ht : tryAlts alts prev (c :: cs) with
    | some r =>
      rw [ht] at h
      simp only [Option.some.injEq] at h
      obtain ⟨toks, hmem, hms⟩ :=
        tryAlts_sound alts prev (c :: cs) r.1 r.2 ht
      exact ⟨toks, hmem, c :: cs, r.2, by rw [h] at hms; exact hms⟩
    | none =>
      rw [ht] at h
      exact ih alts (some c) w h

/-- Every text matched by one of the seven chipset alternatives
canonicalizes into the four-variant enum. -/
theorem canon_of_shape (toks : List (List Char)) (hmem : toks ∈ chipsetAlts)
    (w : List Char) (hshape : SeqShape toks w) :
    String.mk (canonicalizeChipset w) ∈ RTX_4070_VARIANTS := by
  fin_cases hmem <;>
    rw [canonicalizeChipset_of_split w _
      (seqShape_split _ w hshape (by decide) (by decide))
      (by decide) (by decide)] <;> decide

/-- Text matched by the prefixed Ti-Super alternative canonicalizes to
"RTX 4070 Ti Super". -/
theorem canon_tiSuper_rtx (w : List Char)
    (hshape : SeqShape [strLower "RTX", strLower "4070", strLower "Ti",
      strLower "Super"] w) :
    String.mk (canonicalizeChipset w) = "RTX 4070 Ti Super" := by
  rw [canonicalizeChipset_of_split w _
    (seqShape_split _ w hshape (by decide) (by decide))
    (by decide) (by decide)]
  decide

/-- Text matched by the unprefixed Ti-Super alternative also
canonicalizes to "RTX 4070 Ti Super" (the prefix is added). -/
theorem canon_tiSuper_bare (w : List Char)
    (hshape : SeqShape [strLower "4070", strLower "Ti", strLower "Super"] w) :
    String.mk (canonicalizeChipset w) = "RTX 4070 Ti Super" := by
  rw [canonicalizeChipset_of_split w _
    (seqShape_split _ w hshape (by decide) (by decide))
    (by decide) (by decide)]
  decide

theorem matchSeq_head_low (tc : Char) (tr : List Char)
    (ts : List (List Char)) (s w rest : List Char)
    (h : matchSeq ((tc :: tr) :: ts) s = some (w, rest)) :
    ∃ c cs, s = c :: cs ∧ lowChar c = tc := by
  unfold matchSeq at h
  cases s with
  | nil =>
    rw [show matchLit (tc :: tr) [] = none from rfl] at h
    simp at h
  | cons c cs =>
    refine ⟨c, cs, rfl, ?_⟩
    by_cases hc : lowChar c = tc
    · exact hc
    · unfold matchLit at h
      rw [if_neg hc] at h
      simp at h

theorem tryAlt_rtx_none (toks' : List (List Char)) (prev : Option Char)
    (c : Char) (cs : List Char) (hc : lowChar c = '4') :
    tryAlt (strLower "RTX" :: toks') prev (c :: cs) = none := by
  have hlit : matchLit (strLower "RTX") (c :: cs) = none := by
    show (if lowChar c = 'r' then _ else none) = none
    rw [hc, if_neg (by decide)]
  have hms : matchSeq (strLower "RTX" :: toks') (c :: cs) = none := by
    unfold matchSeq
    rw [hlit]
  unfold tryAlt
  by_cases hb : boundaryB prev (c :: cs).head? = true
  · rw [if_pos hb, hms]
  · rw [if_neg hb]

/-- C10: the enum-membership check after canonicalization never fails —
every string matched by the chipset regex, once whitespace-normalized,
RTX-prefixed when needed and title-cased, is one of the four
`RTX_4070_VARIANTS`, so whenever the search succeeds `_extract_chipset`
returns `ok` and the "not in RTX 4070 series" rejection branch is
unreachable; the only chipset-related error any input can trigger is the
"Failed to extract chipset" one. -/
theorem chipset_reject_unreachable (s : String) (w : List Char)
    (h : searchAux chipsetAlts none s.toList = some w) :
    String.mk (canonicalizeChipset w) ∈ RTX_4070_VARIANTS ∧
    extract_chipset s = .ok (String.mk (canonicalizeChipset w)) := by
  obtain ⟨toks, hmem, s', rest, hms⟩ :=
    searchAux_sound s.toList chipsetAlts none w h
  have hne : toks ≠ [] := by
    intro hcon
    subst hcon
    exact absurd hmem (by decide)
  have hshape := (matchSeq_shape toks s' w rest hne hms).1
  have hmem2 := canon_of_shape toks hmem w hshape
  refine ⟨hmem2, ?_⟩
  unfold extract_chipset
  rw [h]
  dsimp only
  rw [if_pos hmem2]

/-- Witness for C10: the canonical match inside a full product name. -/
theorem chipset_reject_unreachable_witness :
    String.mk (canonicalizeChipset ("RTX 4070 Ti Super".toList)) ∈
      RTX_4070_VARIANTS ∧
    extract_chipset "ASUS RTX 4070 Ti Super 16GB" =
      .ok (String.mk (canonicalizeChipset ("RTX 4070 Ti Super".toList))) :=
  chipset_reject_unreachable "ASUS RTX 4070 Ti Super 16GB"
    ("RTX 4070 Ti Super".toList) (by decide)

/-- C4 amended: the chipset alternatives are tried most-specific-first at
each scan position, so at any position where the full "RTX 4070 Ti Super"
phrase (prefixed or numeral-only) matches with word boundaries, the scan
returns the full phrase — a shorter variant pattern never steals the
match *inside* the longer phrase — and canonicalization yields chipset
"RTX 4070 Ti Super".  The claim's whole-string form is false: `re.search`
is leftmost-first, so a separate earlier occurrence of a shorter pattern
elsewhere in the string can still win (see the counterexample). -/
theorem tiSuper_priority (prev : Option Char) (s w rest : List Char)
    (hb : boundaryB prev s.head? = true)
    (hm : matchSeq [strLower "RTX", strLower "4070", strLower "Ti",
        strLower "Super"] s = some (w, rest) ∨
      matchSeq [strLower "4070", strLower "Ti", strLower "Super"] s =
        some (w, rest))
    (ht : boundaryB w.getLast? rest.head? = true) :
    searchAux chipsetAlts prev s = some w ∧
    String.mk (canonicalizeChipset w) = "RTX 4070 Ti Super" := by
  rcases hm with hm | hm
  · have htry : tryAlt [strLower "RTX", strLower "4070", strLower "Ti",
        strLower "Super"] prev s = some (w, rest) := by
      unfold tryAlt
      rw [if_pos hb, hm]
      dsimp only
      rw [if_pos ht]
    have htrys : tryAlts chipsetAlts prev s = some (w, rest) :=
      tryAlts_cons_some _ _ _ _ _ htry
    obtain ⟨c, cs, hs, _⟩ := matchSeq_head_low 'r' (strLower "TX") _ s w rest hm
    subst hs
    refine ⟨?_, canon_tiSuper_rtx w
      (matchSeq_shape _ _ w rest (by decide) hm).1⟩
    unfold searchAux
    rw [htrys]
  · obtain ⟨c, cs, hs, hc⟩ :=
      matchSeq_head_low '4' (strLower "070") _ s w rest hm
    subst hs
    have htry : tryAlt [strLower "4070", strLower "Ti", strLower "Super"]
        prev (c :: cs) = some (w, rest) := by
      unfold tryAlt
      rw [if_pos hb, hm]
      dsimp only
      rw [if_pos ht]
    have htrys : tryAlts chipsetAlts prev (c :: cs) = some (w, rest) := by
      unfold chipsetAlts
      rw [tryAlts_cons_none _ _ _ _ (tryAlt_rtx_none _ prev c cs hc)]
      rw [tryAlts_cons_none _ _ _ _ (tryAlt_rtx_none _ prev c cs hc)]
      rw [tryAlts_cons_none _ _ _ _ (tryAlt_rtx_none _ prev c cs hc)]
      rw [tryAlts_cons_none _ _ _ _ (tryAlt_rtx_none _ prev c cs hc)]
      exact tryAlts_cons_some _ _ _ _ _ htry
    refine ⟨?_, canon_tiSuper_bare w
      (matchSeq_shape _ _ w rest (by decide) hm).1⟩
    unfold searchAux
    rw [htrys]

/-- Witness for C4 (amended): the phrase at the scan position is taken
whole and canonicalizes to "RTX 4070 Ti Super". -/
theorem tiSuper_priority_witness :
    searchAux chipsetAlts none ("RTX 4070 Ti Super".toList) =
      some ("RTX 4070 Ti Super".toList) ∧
    String.mk (canonicalizeChipset ("RTX 4070 Ti Super".toList)) =
      "RTX 4070 Ti Super" :=
  tiSuper_priority none ("RTX 4070 Ti Super".toList)
    ("RTX 4070 Ti Super".toList) [] (by decide) (Or.inl (by decide))
    (by decide)

end SkuInv
